import Mathlib

/-!
Shallow embedding of the goldmark-mmd metadata extension (`meta.go`).

The source is a goldmark block-parser extension that recognises a leading
metadata block delimited by `<!--` plus a one-byte format signal
(`:` YAML, `#` TOML, `{`/`}` JSON), accumulates the enclosed raw bytes
line by line, decodes them with an external `dati` decoder, stores the
outcome in the parse context, and reconciles success/failure back into
the output tree.

Bytes are modelled as `Nat`; a line or a document is a `List Byte`.
The external `dati.LoadData` decoder is a black-box parameter
(`LoadDataFn`), mirroring the Go code where `loadMetadata` returns the
named-return pair `(meta, err)` exactly as `dati.LoadData` left it.
The goldmark host pipeline (not part of this repository) is modelled
from the spec where needed; the corresponding definitions say so in
their doc comments.
-/

namespace Mmd

abbrev Byte := Nat

/-- `openToken = "<!--"` from `meta.go`. -/
def openToken : List Byte := [60, 33, 45, 45]

/-- `closeToken = "-->"` from `meta.go`. -/
def closeToken : List Byte := [45, 45, 62]

/-- `formatYaml = ':'`. -/
def formatYaml : Byte := 58

/-- `formatToml = '#'`. -/
def formatToml : Byte := 35

/-- `formatJsonOpen = '\x7b'`. -/
def formatJsonOpen : Byte := 123

/-- `formatJsonClose = '\x7d'`. -/
def formatJsonClose : Byte := 125

/-- goldmark `util.IsSpace`: space, tab, newline, vertical tab, form feed,
carriage return. -/
def IsSpace (c : Byte) : Bool :=
  c = 32 || c = 9 || c = 10 || c = 11 || c = 12 || c = 13

/-- goldmark `util.TrimLeftSpace`. -/
def TrimLeftSpace (l : List Byte) : List Byte := l.dropWhile IsSpace

/-- goldmark `util.TrimRightSpace`. -/
def TrimRightSpace (l : List Byte) : List Byte :=
  (l.reverse.dropWhile IsSpace).reverse

/-- goldmark `util.IsBlank`: every byte of the line is a space character. -/
def IsBlank (l : List Byte) : Bool := l.all IsSpace

/-- The signal-byte switch inside `isOpen`: the recognised values are
`formatYaml`, `formatToml` and `formatJsonOpen`. -/
def isSignal (c : Byte) : Bool :=
  c = formatYaml || c = formatToml || c = formatJsonOpen

/-- The scanning loop of `isOpen` (`for i := 0; i < len(line); i++`),
expressed structurally on the suffix `line[i:]`.  The Go condition is
`len(line[i:]) >= len(openToken)+1 && line[i] == openToken[0]` followed by
a switch on `line[i+len(openToken)]`; note that only the FIRST byte of
`openToken` is ever compared against the line. -/
def isOpenAux : List Byte → Bool
  | [] => false
  | c :: rest =>
    if (c :: rest : List Byte).length ≥ openToken.length + 1 ∧
        c = openToken.getD 0 0 ∧
        isSignal ((c :: rest : List Byte).getD openToken.length 0) = true then
      true
    else
      isOpenAux rest

/-- `isOpen` from `meta.go`: trims surrounding whitespace, then scans for a
byte equal to `openToken[0]` with a recognised signal byte `openToken.length`
positions later. -/
def isOpen (line : List Byte) : Bool :=
  isOpenAux (TrimRightSpace (TrimLeftSpace line))

/-- The scanning loop of `isClose`, on the suffix `line[i:]`, returning the
index (relative to the suffix) that the Go loop would return.  The Go loop is:
`if line[i] == signal && len(line[i:]) >= len(closeToken)+1 { i++;
if line[i:i+len(closeToken)] == closeToken { return (signal == formatJsonClose)
? i : i-1 } }`; a failed token comparison resumes the loop at `i+2` (the inner
`i++` plus the loop increment). -/
def isCloseAux (signal : Byte) : List Byte → Option Nat
  | [] => none
  | c :: rest =>
    if c = signal ∧ (c :: rest : List Byte).length ≥ closeToken.length + 1 then
      if rest.take closeToken.length = closeToken then
        some (if signal = formatJsonClose then 1 else 0)
      else
        match rest with
        | [] => none
        | _ :: rest2 => (isCloseAux signal rest2).map (· + 2)
    else
      (isCloseAux signal rest).map (· + 1)

/-- `isClose` from `meta.go`: returns the byte index of `line` at which the
close token starts, or `-1` when it is not found. -/
def isClose (line : List Byte) (signal : Byte) : Int :=
  match isCloseAux signal line with
  | none => -1
  | some n => Int.ofNat n

/-- The byte span of `src` from offset `a` (inclusive) to offset `b`
(exclusive); this is how a goldmark `text.Segment` selects its value from
the source. -/
def slice (src : List Byte) (a b : Nat) : List Byte :=
  (src.drop a).take (b - a)

/-- One past the end of the line starting at byte offset `pos`: the offset
just after the next newline, or the end of the source.  This is the segment
a goldmark reader's `PeekLine` yields (the newline byte belongs to the
line). -/
def lineEnd (src : List Byte) (pos : Nat) : Nat :=
  if (src.drop pos).findIdx (fun c => c == 10) < (src.drop pos).length then
    pos + (src.drop pos).findIdx (fun c => c == 10) + 1
  else src.length

/-- The bytes of the line starting at offset `pos` (what `reader.PeekLine`
returns). -/
def lineAt (src : List Byte) (pos : Nat) : List Byte :=
  slice src pos (lineEnd src pos)

/-- A goldmark `text.Segment`: a start/stop byte range into the source. -/
structure Seg where
  start : Nat
  stop : Nat
deriving DecidableEq

/-- `Segment.Value(source)`. -/
def Seg.Value (s : Seg) (src : List Byte) : List Byte :=
  slice src s.start s.stop

/-- The observable effect of one `metaParser.Continue` call: the segment
appended to the node's lines, the reader position afterwards, and whether
the parser reported `parser.Close`. -/
structure ContOut where
  seg : Seg
  nextPos : Nat
  close : Bool
deriving DecidableEq

/-- `metaParser.Continue` from `meta.go`: peek the current line; if
`isClose` finds the close token at index `n` and the line is not blank,
trim the segment's stop by `len(line[n:])`, append it, advance the reader
by `n + len(closeToken) + 1` and report close; otherwise append the whole
line segment and continue. -/
def Continue (src : List Byte) (format : Byte) (pos : Nat) : ContOut :=
  if isClose (lineAt src pos) format ≠ -1 ∧ IsBlank (lineAt src pos) = false then
    ⟨⟨pos, lineEnd src pos -
        ((lineAt src pos).length - (isClose (lineAt src pos) format).toNat)⟩,
      pos + ((isClose (lineAt src pos) format).toNat + closeToken.length + 1),
      true⟩
  else
    ⟨⟨pos, lineEnd src pos⟩, lineEnd src pos, false⟩

/-- A decoded metadata value.  The claims never inspect the loosely-typed
values, so a string stands in for Go's `interface` values. -/
abbrev MVal := String

/-- The decoded metadata mapping (`type metadata map[string]interface`,
modelled as an association list). -/
abbrev MMap := List (String × MVal)

/-- The `data` record stored in the parse context under `contextKey`:
the decoded mapping (nullable), the decode error (nullable) and a reference
to the placeholder node (modelled by a node id). -/
structure Data where
  Map : Option MMap
  Error : Option String
  Node : Nat
deriving DecidableEq

/-- `Get` from `meta.go`: returns `nil` when no entry is stored, otherwise
the entry's `Map` field — the `Error` field is never consulted. -/
def Get (pc : Option Data) : Option MMap :=
  match pc with
  | none => none
  | some d => d.Map

/-- `TryGet` from `meta.go`: returns `(nil, nil)` when no entry is stored;
`(nil, err)` when the entry carries an error; `(map, nil)` otherwise. -/
def TryGet (pc : Option Data) : Option MMap × Option String :=
  match pc with
  | none => (none, none)
  | some d =>
    match d.Error with
    | some e => (none, some e)
    | none => (d.Map, none)

/-- The three `dati.DataFormat` values the dispatcher can select. -/
inductive DatiFormat
  | yaml
  | toml
  | json
deriving DecidableEq

/-- The external `dati.LoadData` decoder, as a black box: given a format and
the raw bytes it yields the pair `(meta, err)` exactly as the Go
named-return values are left — nothing forces the map to be `nil` when the
error is non-`nil`. -/
abbrev LoadDataFn := DatiFormat → List Byte → Option MMap × Option String

/-- `metaParser.loadMetadata` from `meta.go`: dispatch on the stored format
byte (`:` → YAML, `#` → TOML, `}` → JSON) and invoke the decoder; an
unmapped byte yields `dati.ErrUnsupportedData`. -/
def loadMetadata (loadData : LoadDataFn) (format : Byte) (buf : List Byte) :
    Option MMap × Option String :=
  if format = formatYaml then loadData DatiFormat.yaml buf
  else if format = formatToml then loadData DatiFormat.toml buf
  else if format = formatJsonClose then loadData DatiFormat.json buf
  else (none, some "unsupported data format")

/-- The byte buffer `metaParser.Close` builds: the node's line segments,
each resolved against the source, concatenated in order. -/
def nodeBuffer (src : List Byte) (segs : List Seg) : List Byte :=
  (segs.map (fun s => s.Value src)).flatten

/-- `metaParser.Close` from `meta.go`: build the buffer from the node's
lines, decode it, store the `data` entry in the parse context
(unconditionally overwriting any previous entry), and remove the
placeholder node from its parent exactly when the decode error is `nil`.
The parent's children are modelled as a list of node ids. -/
def Close (loadData : LoadDataFn) (format : Byte) (src : List Byte)
    (nodeSegs : List Seg) (nodeId : Nat) (_pc : Option Data)
    (parentChildren : List Nat) : Option Data × List Nat :=
  if (loadMetadata loadData format (nodeBuffer src nodeSegs)).2 = none then
    (some ⟨(loadMetadata loadData format (nodeBuffer src nodeSegs)).1,
        (loadMetadata loadData format (nodeBuffer src nodeSegs)).2, nodeId⟩,
      parentChildren.erase nodeId)
  else
    (some ⟨(loadMetadata loadData format (nodeBuffer src nodeSegs)).1,
        (loadMetadata loadData format (nodeBuffer src nodeSegs)).2, nodeId⟩,
      parentChildren)

/-- The signal byte `reader.Peek()` returns inside `Open`, after the reader
advanced past `openToken` from position `pos`. -/
def openSignal (src : List Byte) (pos : Nat) : Byte :=
  src.getD (pos + openToken.length) 0

/-- The format byte `Open` stores into the parser: the peeked signal, except
that an opening brace is replaced by the closing brace to search for. -/
def openFormat (src : List Byte) (pos : Nat) : Byte :=
  if openSignal src pos = formatJsonOpen then formatJsonClose
  else openSignal src pos

/-- The reader position after `Open` consumed the opening marker: past
`openToken` and past the signal byte — except for the JSON format, where the
opening brace is NOT consumed (it stays in the buffered content). -/
def openPos (src : List Byte) (pos : Nat) : Nat :=
  if openSignal src pos = formatJsonOpen then pos + openToken.length
  else pos + openToken.length + 1

/-- The observable effect of one `metaParser.Open` call: the returned node
(carrying its first segment) if any, the parser's format field, the reader
position, the parse context, the parent's children and — when `Open` closed
the block itself — the buffer that was decoded. -/
structure OpenOut where
  node : Option (List Seg)
  format : Byte
  pos : Nat
  pc : Option Data
  parentChildren : List Nat
  buffer : Option (List Byte)
deriving DecidableEq

/-- `metaParser.Open` from `meta.go`: a line with non-zero index is rejected
outright.  On line 0, if `isOpen` holds, consume the opening marker, record
the format in the parser, and run `Continue` on the rest of the line: if it
already closes, append the node to the parent and run `Close` (returning no
node); otherwise return the node holding the first segment. -/
def Open (loadData : LoadDataFn) (linenum : Nat) (src : List Byte) (pos : Nat)
    (format0 : Byte) (pc : Option Data) (nodeId : Nat)
    (parentChildren : List Nat) : OpenOut :=
  if linenum ≠ 0 then ⟨none, format0, pos, pc, parentChildren, none⟩
  else if isOpen (lineAt src pos) then
    if (Continue src (openFormat src pos) (openPos src pos)).close then
      ⟨none, openFormat src pos,
        (Continue src (openFormat src pos) (openPos src pos)).nextPos,
        (Close loadData (openFormat src pos) src
          [(Continue src (openFormat src pos) (openPos src pos)).seg] nodeId pc
          (parentChildren ++ [nodeId])).1,
        (Close loadData (openFormat src pos) src
          [(Continue src (openFormat src pos) (openPos src pos)).seg] nodeId pc
          (parentChildren ++ [nodeId])).2,
        some (nodeBuffer src
          [(Continue src (openFormat src pos) (openPos src pos)).seg])⟩
    else
      ⟨some [(Continue src (openFormat src pos) (openPos src pos)).seg],
        openFormat src pos,
        (Continue src (openFormat src pos) (openPos src pos)).nextPos, pc,
        parentChildren, none⟩
  else ⟨none, format0, pos, pc, parentChildren, none⟩

/-- Modelled from the spec: while a block is open the host pipeline
(goldmark — not part of this repository) calls `Continue` once per line in
document order; when `Continue` reports close, accumulation ends with the
collected segments and the post-close reader position; when the input ends
first, accumulation ends with no close position (spec §4.2).  The fuel
argument only bounds the recursion; `src.length + 1` steps always reach the
end of input because each non-closing call advances the position. -/
def accumulateAux (src : List Byte) (format : Byte) :
    Nat → Nat → List Seg → List Seg × Option Nat
  | 0, _, acc => (acc, none)
  | fuel + 1, pos, acc =>
    if pos < src.length then
      if (Continue src format pos).close then
        (acc ++ [(Continue src format pos).seg],
          some (Continue src format pos).nextPos)
      else
        accumulateAux src format fuel (Continue src format pos).nextPos
          (acc ++ [(Continue src format pos).seg])
    else (acc, none)

/-- Modelled from the spec: the per-line accumulation loop starting at
position `pos` with the segments collected so far. -/
def accumulate (src : List Byte) (format : Byte) (pos : Nat)
    (acc : List Seg) : List Seg × Option Nat :=
  accumulateAux src format (src.length + 1) pos acc

/-- The outcome of scanning one document: the parse context (holding the
Parse Result Entry, if one was created), the parent's children, the
placeholder node's segments, the buffer handed to the decoder (if the block
closed), and the parser's format field. -/
structure ParseOutcome where
  ctx : Option Data
  parentChildren : List Nat
  nodeSegs : List Seg
  buffer : Option (List Byte)
  format : Byte
deriving DecidableEq

/-- Modelled from the spec: the host pipeline drives the scanner through
the open/continue/close protocol — `Open` on the document's first line
(index 0); if a node is returned it is appended to the parent and
`Continue` runs once per line until it reports close, at which point
`Close` runs; if the input ends while still accumulating, `Close` is never
invoked: the buffered content is abandoned and no entry is produced
(spec §4.2). -/
def parseDoc (loadData : LoadDataFn) (src : List Byte) (nodeId : Nat)
    (parentChildren : List Nat) : ParseOutcome :=
  match (Open loadData 0 src 0 0 none nodeId parentChildren).node with
  | none =>
    ⟨(Open loadData 0 src 0 0 none nodeId parentChildren).pc,
      (Open loadData 0 src 0 0 none nodeId parentChildren).parentChildren, [],
      (Open loadData 0 src 0 0 none nodeId parentChildren).buffer,
      (Open loadData 0 src 0 0 none nodeId parentChildren).format⟩
  | some segs0 =>
    match accumulate src (Open loadData 0 src 0 0 none nodeId parentChildren).format
        (Open loadData 0 src 0 0 none nodeId parentChildren).pos segs0 with
    | (segs, some _) =>
      ⟨(Close loadData (Open loadData 0 src 0 0 none nodeId parentChildren).format
          src segs nodeId none (parentChildren ++ [nodeId])).1,
        (Close loadData (Open loadData 0 src 0 0 none nodeId parentChildren).format
          src segs nodeId none (parentChildren ++ [nodeId])).2,
        segs, some (nodeBuffer src segs),
        (Open loadData 0 src 0 0 none nodeId parentChildren).format⟩
    | (segs, none) =>
      ⟨none, parentChildren ++ [nodeId], segs, none,
        (Open loadData 0 src 0 0 none nodeId parentChildren).format⟩

/-- The block-parser instances of the package.  `meta.go` creates exactly
one: the package-level `defaultParser`. -/
inductive BlockParser
  | defaultInstance
deriving DecidableEq

/-- `var defaultParser = &metaParser{}` — the single shared instance whose
`format` field every `Open` call overwrites. -/
def defaultParser : BlockParser := BlockParser.defaultInstance

/-- `NewParser` from `meta.go`: every call returns the package-level
`defaultParser`, never a fresh instance. -/
def NewParser (_ : Unit) : BlockParser := defaultParser

/-- A `gast.String` node as the transformer creates it: its text and its
`code` flag. -/
structure GoString where
  text : String
  code : Bool
deriving DecidableEq

/-- The document-wide metadata slot (`Document.Meta()`), a Go map modelled
as its lookup function. -/
abbrev DocMeta := String → Option MVal

/-- The part of the host tree the transformer touches: the placeholder
node's children and the document's metadata slot (`Document.Meta()`). -/
structure TransformState where
  placeholderChildren : List GoString
  docMeta : DocMeta

/-- goldmark `Document.AddMeta`: a Go map assignment — the key now maps to
the value, every other key is untouched. -/
def AddMeta (m : DocMeta) (k : String) (v : MVal) : DocMeta :=
  fun q => if q = k then some v else m q

/-- `astTransformer.Transform` from `meta.go`: no context entry — do
nothing; an entry with an error — append one inline-code `gast.String`
child carrying `"<!-- meta error, %s -->"` to the placeholder node and
return; otherwise, when `StoresInDocument` is set, `AddMeta` every pair of
the decoded mapping into the document's metadata. -/
def Transform (storesInDocument : Bool) (pc : Option Data)
    (st : TransformState) : TransformState :=
  match pc with
  | none => st
  | some d =>
    match d.Error with
    | some e =>
      ⟨st.placeholderChildren ++ [⟨"<!-- meta error, " ++ e ++ " -->", true⟩],
        st.docMeta⟩
    | none =>
      if storesInDocument then
        ⟨st.placeholderChildren,
          (d.Map.getD []).foldl (fun acc kv => AddMeta acc kv.1 kv.2) st.docMeta⟩
      else st

/-- A decoder stub used by concrete witness computations. -/
def ldNone : LoadDataFn := fun _ _ => (none, none)

/-- A decoder outcome the Go type permits: a (partial) mapping left in the
named return value together with a non-`nil` error. -/
def ldPartial : LoadDataFn := fun _ _ => (some [("a", "1")], some "boom")

/-!  ## Theorems  -/

/-- If the `isClose` scan succeeds, the returned index leaves at least
`closeToken.length` bytes inside the line. -/
theorem isCloseAux_bound {signal : Byte} :
    ∀ {l : List Byte} {n : Nat}, isCloseAux signal l = some n →
      n + closeToken.length ≤ l.length := by
  intro l
  induction l using isCloseAux.induct signal with
  | case1 => intro n h; simp [isCloseAux] at h
  | case2 c rest hcond htok =>
    intro n h
    unfold isCloseAux at h
    rw [if_pos hcond, if_pos htok] at h
    simp only [Option.some.injEq] at h
    subst h
    rcases hcond with ⟨-, hlen⟩
    split <;> (simp_all [closeToken]; try omega)
  | case3 c h1 h2 =>
    intro n h
    unfold isCloseAux at h
    rw [if_pos h1, if_neg h2] at h
    simp at h
  | case4 c b rest2 hcond htok ih =>
    intro n h
    unfold isCloseAux at h
    rw [if_pos hcond, if_neg htok] at h
    simp only [Option.map_eq_some'] at h
    obtain ⟨m, hm, hn⟩ := h
    have hb := ih hm
    subst hn
    simp only [List.length_cons]
    omega
  | case5 c rest hcond ih =>
    intro n h
    unfold isCloseAux at h
    rw [if_neg hcond] at h
    simp only [Option.map_eq_some'] at h
    obtain ⟨m, hm, hn⟩ := h
    have hb := ih hm
    subst hn
    simp only [List.length_cons]
    omega

theorem slice_cons_succ (c : Byte) (l : List Byte) (a b : Nat) :
    slice (c :: l) (a + 1) (b + 1) = slice l a b := by
  simp [slice]

theorem slice_zero (l : List Byte) (b : Nat) : slice l 0 b = l.take b := by
  simp [slice]

/-- Two adjacent slices concatenate to the enclosing slice. -/
theorem slice_append (src : List Byte) {a b c : Nat} (hab : a ≤ b)
    (hbc : b ≤ c) : slice src a b ++ slice src b c = slice src a c := by
  simp only [slice]
  have hc : c - a = (b - a) + (c - b) := by omega
  rw [hc, List.take_add, List.drop_drop]
  have hb : a + (b - a) = b := by omega
  rw [hb]

/-- Where the `isClose` scan reports index `n`, the line really carries the
close marker: the signal byte immediately followed by `closeToken`, starting
at `n - 1` for the JSON close signal and at `n` otherwise. -/
theorem isCloseAux_spec {signal : Byte} :
    ∀ {l : List Byte} {n : Nat}, isCloseAux signal l = some n →
      (signal = formatJsonClose → 1 ≤ n) ∧
      slice l (if signal = formatJsonClose then n - 1 else n)
        ((if signal = formatJsonClose then n - 1 else n) + closeToken.length + 1) =
        signal :: closeToken := by
  intro l
  induction l using isCloseAux.induct signal with
  | case1 => intro n h; simp [isCloseAux] at h
  | case2 c rest hcond htok =>
    intro n h
    unfold isCloseAux at h
    rw [if_pos hcond, if_pos htok] at h
    simp only [Option.some.injEq] at h
    rcases hcond with ⟨hsig, -⟩
    subst hsig
    constructor
    · intro hj
      rw [if_pos hj] at h
      omega
    · have hstart : (if c = formatJsonClose then n - 1 else n) = 0 := by
        split at h <;> split <;> omega
      rw [hstart, slice_zero]
      simp [closeToken] at htok ⊢
      simp [List.take_succ_cons, htok, closeToken]
  | case3 c h1 h2 =>
    intro n h
    unfold isCloseAux at h
    rw [if_pos h1, if_neg h2] at h
    simp at h
  | case4 c b rest2 hcond htok ih =>
    intro n h
    unfold isCloseAux at h
    rw [if_pos hcond, if_neg htok] at h
    simp only [Option.map_eq_some'] at h
    obtain ⟨m, hm, hn⟩ := h
    obtain ⟨hj, hsl⟩ := ih hm
    subst hn
    refine ⟨fun hjj => by have := hj hjj; omega, ?_⟩
    have hstart : (if signal = formatJsonClose then m + 2 - 1 else m + 2) =
        ((if signal = formatJsonClose then m - 1 else m) + 1) + 1 := by
      split
      · rename_i hjj; have := hj hjj; omega
      · rfl
    rw [hstart]
    have hend1 : (if signal = formatJsonClose then m - 1 else m) + 1 + 1 +
        closeToken.length + 1 =
        (((if signal = formatJsonClose then m - 1 else m) + 1) +
          closeToken.length + 1) + 1 := by omega
    rw [hend1, slice_cons_succ]
    have hend2 : (if signal = formatJsonClose then m - 1 else m) + 1 +
        closeToken.length + 1 =
        ((if signal = formatJsonClose then m - 1 else m) +
          closeToken.length + 1) + 1 := by omega
    rw [hend2, slice_cons_succ]
    exact hsl
  | case5 c rest hcond ih =>
    intro n h
    unfold isCloseAux at h
    rw [if_neg hcond] at h
    simp only [Option.map_eq_some'] at h
    obtain ⟨m, hm, hn⟩ := h
    obtain ⟨hj, hsl⟩ := ih hm
    subst hn
    refine ⟨fun hjj => by have := hj hjj; omega, ?_⟩
    have hstart : (if signal = formatJsonClose then m + 1 - 1 else m + 1) =
        (if signal = formatJsonClose then m - 1 else m) + 1 := by
      split
      · rename_i hjj; have := hj hjj; omega
      · rfl
    rw [hstart]
    have hend : (if signal = formatJsonClose then m - 1 else m) + 1 +
        closeToken.length + 1 =
        ((if signal = formatJsonClose then m - 1 else m) +
          closeToken.length + 1) + 1 := by omega
    rw [hend, slice_cons_succ]
    exact hsl

/-- C10: `isClose` is total and in-bounds.  For every line and signal byte it
returns either `-1` or an index `n` that is a valid position in the line, with
the full `closeToken` comparison having stayed inside the line:
`n + closeToken.length ≤ line.length` (hence `n < line.length`). -/
theorem C10_isClose_bounds (line : List Byte) (signal : Byte) :
    isClose line signal = -1 ∨
      ∃ n : Nat, isClose line signal = Int.ofNat n ∧
        n + closeToken.length ≤ line.length ∧ n < line.length := by
  unfold isClose
  cases h : isCloseAux signal line with
  | none => left; rfl
  | some n =>
    right
    refine ⟨n, rfl, isCloseAux_bound h, ?_⟩
    have := isCloseAux_bound h
    simp [closeToken] at this
    omega

/-- C1 (code bug): `isOpen` accepts a line in which the three bytes after the
`<` are not `!--`.  On the line `<000:` (bytes `60,48,48,48,58`) the function
returns `true` even though the bytes after the `<` differ from `!--`
(`33,45,45`): the Go loop compares only `line[i] == openToken[0]` and the
signal byte at `line[i+4]`, never the token's middle bytes. -/
theorem C1_isOpen_without_token :
    isOpen [60, 48, 48, 48, 58] = true ∧
      (List.drop 1 [60, 48, 48, 48, 58]).take 3 ≠ [33, 45, 45] := by
  constructor
  · rfl
  · decide

theorem lineEnd_le (src : List Byte) (pos : Nat) :
    lineEnd src pos ≤ src.length := by
  unfold lineEnd
  split
  · rename_i h
    have hd : (src.drop pos).length = src.length - pos := List.length_drop _ _
    omega
  · exact Nat.le_refl _

theorem lt_lineEnd (src : List Byte) (pos : Nat) (h : pos < src.length) :
    pos < lineEnd src pos := by
  unfold lineEnd
  split
  · omega
  · exact h

theorem lineEnd_ge (src : List Byte) (pos : Nat) (h : pos ≤ src.length) :
    pos ≤ lineEnd src pos := by
  unfold lineEnd
  split
  · omega
  · exact h

theorem lineAt_length (src : List Byte) (pos : Nat) :
    (lineAt src pos).length = lineEnd src pos - pos := by
  unfold lineAt slice
  rw [List.length_take, List.length_drop]
  have := lineEnd_le src pos
  omega

theorem lineAt_of_ge (src : List Byte) (pos : Nat) (h : src.length ≤ pos) :
    lineAt src pos = [] := by
  unfold lineAt slice
  rw [List.drop_eq_nil_of_le h]
  simp

/-- When `Continue` does not close, it appends the whole line segment and
moves the reader to the next line. -/
theorem Continue_not_close {src : List Byte} {format : Byte} {pos : Nat}
    (h : (Continue src format pos).close = false) :
    Continue src format pos =
      ⟨⟨pos, lineEnd src pos⟩, lineEnd src pos, false⟩ := by
  unfold Continue at h ⊢
  by_cases hc : (isClose (lineAt src pos) format ≠ -1 ∧
      IsBlank (lineAt src pos) = false)
  · rw [if_pos hc] at h; simp at h
  · rw [if_neg hc]

/-- When `Continue` closes, the close scan succeeded on a non-blank line and
the output is determined by the found index. -/
theorem Continue_close {src : List Byte} {format : Byte} {pos : Nat}
    (h : (Continue src format pos).close = true) :
    ∃ n : Nat, isCloseAux format (lineAt src pos) = some n ∧
      IsBlank (lineAt src pos) = false ∧
      Continue src format pos =
        ⟨⟨pos, lineEnd src pos - ((lineAt src pos).length - n)⟩,
          pos + (n + closeToken.length + 1), true⟩ := by
  unfold Continue at h ⊢
  by_cases hc : (isClose (lineAt src pos) format ≠ -1 ∧
      IsBlank (lineAt src pos) = false)
  · obtain ⟨hne, hbl⟩ := hc
    cases ha : isCloseAux format (lineAt src pos) with
    | none =>
      exfalso
      apply hne
      unfold isClose
      rw [ha]
    | some n =>
      have htn : (isClose (lineAt src pos) format).toNat = n := by
        unfold isClose
        rw [ha]
        rfl
      refine ⟨n, rfl, hbl, ?_⟩
      rw [if_pos ⟨hne, hbl⟩, htn]
  · rw [if_neg hc] at h
    simp at h

/-- C7: a line consisting entirely of whitespace never closes the block —
`Continue` appends the whole line segment and keeps accumulating, regardless
of what the close scan would have found. -/
theorem C7_blank_line_continues (src : List Byte) (format : Byte) (pos : Nat)
    (h : IsBlank (lineAt src pos) = true) :
    Continue src format pos =
      ⟨⟨pos, lineEnd src pos⟩, lineEnd src pos, false⟩ := by
  have hneg : ¬(isClose (lineAt src pos) format ≠ -1 ∧
      IsBlank (lineAt src pos) = false) := by
    rintro ⟨-, hb⟩
    rw [h] at hb
    cases hb
  unfold Continue
  rw [if_neg hneg]

/-- C7 witness: a two-space-plus-newline line (`IsBlank` holds) is appended
whole and accumulation continues. -/
theorem C7_blank_line_witness :
    IsBlank (lineAt [32, 32, 10] 0) = true ∧
      Continue [32, 32, 10] 58 0 =
        ⟨⟨0, lineEnd [32, 32, 10] 0⟩, lineEnd [32, 32, 10] 0, false⟩ :=
  ⟨by decide, C7_blank_line_continues [32, 32, 10] 58 0 (by decide)⟩

/-- C5: `Open` invoked with a non-zero line index recognises nothing: it
returns no node, leaves the parse context (and hence `Get`) untouched, does
not move the reader, does not touch the parent's children, and keeps the
previous format field. -/
theorem C5_open_nonzero_line (loadData : LoadDataFn) (linenum : Nat)
    (src : List Byte) (pos : Nat) (format0 : Byte) (pc : Option Data)
    (nodeId : Nat) (parentChildren : List Nat) (h : linenum ≠ 0) :
    Open loadData linenum src pos format0 pc nodeId parentChildren =
      ⟨none, format0, pos, pc, parentChildren, none⟩ ∧
    Get (Open loadData linenum src pos format0 pc nodeId parentChildren).pc =
      Get pc := by
  unfold Open
  rw [if_pos h]
  exact ⟨rfl, rfl⟩

/-- C5 witness: on line index 1 the opener line `<!--:` is ignored. -/
theorem C5_open_nonzero_line_witness :
    (1 : Nat) ≠ 0 ∧
      (Open ldNone 1 [60, 33, 45, 45, 58] 0 0 none 7 [] =
        ⟨none, 0, 0, none, [], none⟩ ∧
      Get (Open ldNone 1 [60, 33, 45, 45, 58] 0 0 none 7 []).pc = Get none) :=
  ⟨by decide, C5_open_nonzero_line ldNone 1 [60, 33, 45, 45, 58] 0 0 none 7 []
    (by decide)⟩

/-- C6: `Close` always stores exactly one entry — the decode outcome plus
the placeholder reference — in the parse context (overwriting whatever was
there); when the decode error is `nil` the placeholder is removed from the
parent's children, and when it is non-`nil` the children are left exactly as
they were, the placeholder (with its raw text) staying in the tree. -/
theorem C6_close_stores_entry (loadData : LoadDataFn) (format : Byte)
    (src : List Byte) (nodeSegs : List Seg) (nodeId : Nat) (pc : Option Data)
    (parentChildren : List Nat) :
    (Close loadData format src nodeSegs nodeId pc parentChildren).1 =
      some ⟨(loadMetadata loadData format (nodeBuffer src nodeSegs)).1,
        (loadMetadata loadData format (nodeBuffer src nodeSegs)).2, nodeId⟩ ∧
    ((loadMetadata loadData format (nodeBuffer src nodeSegs)).2 = none →
      (Close loadData format src nodeSegs nodeId pc parentChildren).2 =
        parentChildren.erase nodeId) ∧
    ((loadMetadata loadData format (nodeBuffer src nodeSegs)).2 ≠ none →
      (Close loadData format src nodeSegs nodeId pc parentChildren).2 =
        parentChildren) := by
  unfold Close
  split
  · rename_i h
    exact ⟨rfl, fun _ => rfl, fun hne => absurd h hne⟩
  · rename_i h
    exact ⟨rfl, fun he => absurd he h, fun _ => rfl⟩

/-- C6 witness: with a succeeding decoder the placeholder (id 7) is erased
from the children; with a failing decoder the children are untouched. -/
theorem C6_close_stores_entry_witness :
    (loadMetadata ldNone formatYaml (nodeBuffer [58] [⟨0, 1⟩])).2 = none ∧
    (Close ldNone formatYaml [58] [⟨0, 1⟩] 7 none [1, 7]).2 = [1] ∧
    (loadMetadata ldPartial formatYaml (nodeBuffer [58] [⟨0, 1⟩])).2 ≠ none ∧
    (Close ldPartial formatYaml [58] [⟨0, 1⟩] 7 none [1, 7]).2 = [1, 7] :=
  ⟨by decide,
    (C6_close_stores_entry ldNone formatYaml [58] [⟨0, 1⟩] 7 none [1, 7]).2.1
      (by decide),
    by decide,
    (C6_close_stores_entry ldPartial formatYaml [58] [⟨0, 1⟩] 7 none [1, 7]).2.2
      (by decide)⟩

/-- C3 counterexample: `Close` with a decoder outcome the Go types permit —
a (partial) mapping left in the named return value alongside a non-`nil`
error — stores an entry whose `Error` is non-`nil`, and yet `Get` on that
context returns the mapping rather than an absent one: `Get` never consults
the `Error` field. -/
theorem C3_get_with_error_counterexample :
    (Close ldPartial formatYaml [] [] 0 none []).1 =
      some ⟨some [("a", "1")], some "boom", 0⟩ ∧
    Get (Close ldPartial formatYaml [] [] 0 none []).1 = some [("a", "1")] := by
  exact ⟨rfl, rfl⟩

/-- C3 (amended): for every context whose entry carries a non-`nil` error,
`TryGet` returns no mapping together with exactly that error; `Get`,
however, returns the entry's stored `Map` field unconditionally, so its
result is absent only when the decoder stored no mapping next to the
error. -/
theorem C3_accessors_amended (pc : Option Data) (d : Data) (e : String)
    (h1 : pc = some d) (h2 : d.Error = some e) :
    TryGet pc = (none, some e) ∧ Get pc = d.Map := by
  subst h1
  rcases d with ⟨m, err, nid⟩
  simp only at h2
  subst h2
  exact ⟨rfl, rfl⟩

/-- C3 witness: on the concrete errored entry, `TryGet` yields the error
with no mapping while `Get` yields the stored mapping. -/
theorem C3_accessors_amended_witness :
    TryGet (some ⟨some [("a", "1")], some "boom", 0⟩) = (none, some "boom") ∧
      Get (some ⟨some [("a", "1")], some "boom", 0⟩) =
        (Data.mk (some [("a", "1")]) (some "boom") 0).Map :=
  C3_accessors_amended (some ⟨some [("a", "1")], some "boom", 0⟩)
    ⟨some [("a", "1")], some "boom", 0⟩ "boom" rfl rfl

/-- C9: every `NewParser` call returns the one package-level `defaultParser`
instance, and the recognised signal lives in that shared instance's `format`
field, not in the per-document parse context: whenever a first line opens,
`Open` overwrites the field with the new document's signal — the previous
value `format0` does not appear in the result, so the format in effect
during later `Continue`/`Close` calls is whatever the most recent `Open`
wrote — while a still-accumulating `Open` leaves the context exactly as it
was (the `Data` entry type records no format at all). -/
theorem C9_shared_parser_format (u v : Unit) (loadData : LoadDataFn)
    (src : List Byte) (format0 : Byte) (pc : Option Data) (nodeId : Nat)
    (parentChildren : List Nat) (ho : isOpen (lineAt src 0) = true) :
    NewParser u = NewParser v ∧
    (Open loadData 0 src 0 format0 pc nodeId parentChildren).format =
      openFormat src 0 ∧
    ((Open loadData 0 src 0 format0 pc nodeId parentChildren).node ≠ none →
      (Open loadData 0 src 0 format0 pc nodeId parentChildren).pc = pc) := by
  refine ⟨rfl, ?_, ?_⟩
  · unfold Open
    rw [if_neg (by decide), if_pos ho]
    split <;> rfl
  · unfold Open
    rw [if_neg (by decide), if_pos ho]
    split
    · intro hn
      exact absurd rfl hn
    · intro _
      rfl

/-- When the first `Continue` (the one `Open` itself runs on the rest of
line 0) does not close, `Open` on line 0 either rejects the line or returns
the accumulating node, leaving the context untouched. -/
theorem Open_line0 (loadData : LoadDataFn) (src : List Byte) (format0 : Byte)
    (pc : Option Data) (nodeId : Nat) (ch : List Nat)
    (hnc : (Continue src (openFormat src 0) (openPos src 0)).close = false) :
    Open loadData 0 src 0 format0 pc nodeId ch =
      if isOpen (lineAt src 0) then
        ⟨some [(Continue src (openFormat src 0) (openPos src 0)).seg],
          openFormat src 0,
          (Continue src (openFormat src 0) (openPos src 0)).nextPos, pc, ch,
          none⟩
      else ⟨none, format0, 0, pc, ch, none⟩ := by
  unfold Open
  rw [if_neg (by decide)]
  by_cases hio : isOpen (lineAt src 0) = true
  · rw [if_pos hio, if_pos hio, if_neg (by simp [hnc])]
  · rw [if_neg hio, if_neg hio]

/-- C2: when a block may open but no line of the document can pass the close
test, the host protocol never reaches `Close`: no Parse Result Entry is
created, `Get` on the context reports an absent mapping, and no buffer is
ever handed to a decoder. -/
theorem C2_unterminated_no_entry (loadData : LoadDataFn) (src : List Byte)
    (nodeId : Nat) (parentChildren : List Nat)
    (H : ∀ p : Nat, p < src.length →
      isClose (lineAt src p) (openFormat src 0) = -1 ∨
        IsBlank (lineAt src p) = true) :
    (parseDoc loadData src nodeId parentChildren).ctx = none ∧
    Get (parseDoc loadData src nodeId parentChildren).ctx = none ∧
    (parseDoc loadData src nodeId parentChildren).buffer = none := by
  have hcont : ∀ pos, (Continue src (openFormat src 0) pos).close = false := by
    intro pos
    unfold Continue
    by_cases hlt : pos < src.length
    · rcases H pos hlt with h | h
      · have hneg : ¬(isClose (lineAt src pos) (openFormat src 0) ≠ -1 ∧
            IsBlank (lineAt src pos) = false) := fun hc => hc.1 h
        rw [if_neg hneg]
      · have hneg : ¬(isClose (lineAt src pos) (openFormat src 0) ≠ -1 ∧
            IsBlank (lineAt src pos) = false) := by
          rintro ⟨-, hb⟩
          rw [h] at hb
          cases hb
        rw [if_neg hneg]
    · have hneg : ¬(isClose (lineAt src pos) (openFormat src 0) ≠ -1 ∧
          IsBlank (lineAt src pos) = false) := by
        rintro ⟨hne, -⟩
        apply hne
        unfold isClose
        rw [lineAt_of_ge src pos (by omega)]
        rfl
      rw [if_neg hneg]
  have hacc : ∀ fuel pos acc,
      (accumulateAux src (openFormat src 0) fuel pos acc).2 = none := by
    intro fuel
    induction fuel with
    | zero => intro pos acc; rfl
    | succ f ih =>
      intro pos acc
      unfold accumulateAux
      by_cases hlt : pos < src.length
      · rw [if_pos hlt, hcont pos, if_neg (by decide)]
        exact ih _ _
      · rw [if_neg hlt]
  have hopen := Open_line0 loadData src 0 none nodeId parentChildren
    (hcont (openPos src 0))
  have hmain : (parseDoc loadData src nodeId parentChildren).ctx = none ∧
      (parseDoc loadData src nodeId parentChildren).buffer = none := by
    unfold parseDoc
    split
    · rename_i heq
      by_cases hio : isOpen (lineAt src 0) = true
      · rw [hopen, if_pos hio] at heq
        simp at heq
      · rw [hopen, if_neg hio]
        exact ⟨rfl, rfl⟩
    · rename_i segs0 heq
      split
      · rename_i segs q heq2
        exfalso
        by_cases hio : isOpen (lineAt src 0) = true
        · rw [hopen, if_pos hio] at heq2
          unfold accumulate at heq2
          have h2 := congrArg Prod.snd heq2
          dsimp only at h2
          rw [hacc] at h2
          cases h2
        · rw [hopen, if_neg hio] at heq
          simp at heq
      · exact ⟨rfl, rfl⟩
  exact ⟨hmain.1, by rw [hmain.1]; rfl, hmain.2⟩

/-- C2 witness: the document `<!--:\nTitle: x` opens a YAML block that never
closes; no entry, no mapping, no decode. -/
theorem C2_unterminated_witness :
    (∀ p : Nat,
      p < ([60, 33, 45, 45, 58, 10, 84, 105, 116, 108, 101, 58, 32, 120] :
        List Byte).length →
      isClose (lineAt [60, 33, 45, 45, 58, 10, 84, 105, 116, 108, 101, 58,
          32, 120] p)
        (openFormat [60, 33, 45, 45, 58, 10, 84, 105, 116, 108, 101, 58, 32,
          120] 0) = -1 ∨
        IsBlank (lineAt [60, 33, 45, 45, 58, 10, 84, 105, 116, 108, 101, 58,
          32, 120] p) = true) ∧
    ((parseDoc ldNone [60, 33, 45, 45, 58, 10, 84, 105, 116, 108, 101, 58,
        32, 120] 7 [1]).ctx = none ∧
      Get (parseDoc ldNone [60, 33, 45, 45, 58, 10, 84, 105, 116, 108, 101,
        58, 32, 120] 7 [1]).ctx = none ∧
      (parseDoc ldNone [60, 33, 45, 45, 58, 10, 84, 105, 116, 108, 101, 58,
        32, 120] 7 [1]).buffer = none) :=
  ⟨by decide, C2_unterminated_no_entry ldNone
    [60, 33, 45, 45, 58, 10, 84, 105, 116, 108, 101, 58, 32, 120] 7 [1]
    (by decide)⟩

/-- Keys not named by the decoded mapping keep their previous value through
the transformer's `AddMeta` loop. -/
theorem foldl_AddMeta_not_mem (k : String) :
    ∀ (m : MMap) (base : DocMeta), k ∉ m.map Prod.fst →
      (m.foldl (fun acc kv => AddMeta acc kv.1 kv.2) base) k = base k := by
  intro m
  induction m with
  | nil => intro base _; rfl
  | cons p t ih =>
    intro base h
    simp only [List.map_cons, List.mem_cons, not_or] at h
    simp only [List.foldl_cons]
    rw [ih _ h.2]
    unfold AddMeta
    rw [if_neg h.1]

/-- Every pair of the decoded mapping (with key-unique keys) ends up in the
document metadata after the transformer's `AddMeta` loop. -/
theorem foldl_AddMeta_mem (k : String) (v : MVal) :
    ∀ (m : MMap) (base : DocMeta), (m.map Prod.fst).Nodup → (k, v) ∈ m →
      (m.foldl (fun acc kv => AddMeta acc kv.1 kv.2) base) k = some v := by
  intro m
  induction m with
  | nil => intro base _ hmem; cases hmem
  | cons p t ih =>
    intro base hnd hmem
    simp only [List.map_cons, List.nodup_cons] at hnd
    simp only [List.foldl_cons]
    rcases List.mem_cons.mp hmem with heq | hmem'
    · rw [foldl_AddMeta_not_mem k t _ (by rw [← heq] at hnd; simpa using hnd.1)]
      rw [← heq]
      unfold AddMeta
      rw [if_pos rfl]
    · exact ih _ hnd.2 hmem'

/-- C8: the transformer, run once per document: with no entry it does
nothing; with an errored entry it appends exactly one child — an inline-code
string carrying `"<!-- meta error, <msg> -->"` — to the placeholder node and
copies nothing into the document metadata; with an error-free entry and the
store-in-document option enabled it adds every key/value pair of the decoded
mapping additively (keys outside the mapping keep their previous value);
with the option disabled it does nothing. -/
theorem C8_transform_behavior (b : Bool) (st : TransformState) (m : MMap)
    (e : String) (nid : Nat) (k : String) (v : MVal)
    (hnd : (m.map Prod.fst).Nodup) :
    Transform b none st = st ∧
    (∀ mp : Option MMap,
      Transform b (some ⟨mp, some e, nid⟩) st =
        ⟨st.placeholderChildren ++
          [⟨"<!-- meta error, " ++ e ++ " -->", true⟩], st.docMeta⟩) ∧
    Transform false (some ⟨some m, none, nid⟩) st = st ∧
    ((k, v) ∈ m →
      (Transform true (some ⟨some m, none, nid⟩) st).docMeta k = some v) ∧
    (k ∉ m.map Prod.fst →
      (Transform true (some ⟨some m, none, nid⟩) st).docMeta k =
        st.docMeta k) ∧
    (Transform true (some ⟨some m, none, nid⟩) st).placeholderChildren =
      st.placeholderChildren := by
  refine ⟨rfl, fun mp => rfl, rfl, ?_, ?_, rfl⟩
  · intro hmem
    exact foldl_AddMeta_mem k v m st.docMeta hnd hmem
  · intro hnot
    exact foldl_AddMeta_not_mem k m st.docMeta hnot

/-- C8 witness: storing the mapping `x ↦ 1, y ↦ 2` into an empty document
metadata slot makes `x` retrievable. -/
theorem C8_transform_behavior_witness :
    ((([("x", "1"), ("y", "2")] : MMap).map Prod.fst).Nodup) ∧
    (("x", "1") ∈ ([("x", "1"), ("y", "2")] : MMap)) ∧
    (Transform true (some ⟨some [("x", "1"), ("y", "2")], none, 0⟩)
      ⟨[], fun _ => none⟩).docMeta "x" = some "1" :=
  ⟨by decide, by decide,
    (C8_transform_behavior true ⟨[], fun _ => none⟩ [("x", "1"), ("y", "2")]
      "E" 0 "x" "1" (by decide)).2.2.2.1 (by decide)⟩

theorem nodeBuffer_append (src : List Byte) (a b : List Seg) :
    nodeBuffer src (a ++ b) = nodeBuffer src a ++ nodeBuffer src b := by
  unfold nodeBuffer
  rw [List.map_append, List.flatten_append]

theorem nodeBuffer_single (src : List Byte) (s : Seg) :
    nodeBuffer src [s] = s.Value src := by
  unfold nodeBuffer
  simp

/-- A slice of a line is the corresponding slice of the source. -/
theorem slice_lineAt (src : List Byte) (pos a b : Nat)
    (hb : b ≤ lineEnd src pos - pos) :
    slice (lineAt src pos) a b = slice src (pos + a) (pos + b) := by
  unfold lineAt slice
  rw [List.drop_take, List.take_take, List.drop_drop]
  have h1 : pos + b - (pos + a) = b - a := by omega
  rw [h1]
  congr 1
  omega

theorem dropWhile_length_le (p : Byte → Bool) :
    ∀ l : List Byte, (l.dropWhile p).length ≤ l.length := by
  intro l
  induction l with
  | nil => simp
  | cons c t ih =>
    rw [List.dropWhile_cons]
    split
    · simp only [List.length_cons]
      omega
    · simp

theorem isOpenAux_length : ∀ {l : List Byte}, isOpenAux l = true →
    openToken.length + 1 ≤ l.length := by
  intro l
  induction l with
  | nil => intro h; cases h
  | cons c rest ih =>
    intro h
    unfold isOpenAux at h
    split at h
    · rename_i hc
      exact hc.1
    · have := ih h
      simp only [List.length_cons]
      omega

/-- A line `isOpen` accepts holds at least `openToken.length + 1` bytes. -/
theorem isOpen_length {l : List Byte} (h : isOpen l = true) :
    openToken.length + 1 ≤ l.length := by
  unfold isOpen at h
  have h1 := isOpenAux_length h
  have h2 : (TrimRightSpace (TrimLeftSpace l)).length ≤
      (TrimLeftSpace l).length := by
    unfold TrimRightSpace
    rw [List.length_reverse]
    calc ((TrimLeftSpace l).reverse.dropWhile IsSpace).length
        ≤ (TrimLeftSpace l).reverse.length := dropWhile_length_le _ _
      _ = (TrimLeftSpace l).length := List.length_reverse _
  have h3 : (TrimLeftSpace l).length ≤ l.length := dropWhile_length_le _ _
  omega

/-- Facts about the line on which the close scan succeeds: the position is
inside the source, the trimmed segment stop lands exactly at the close
index, and the close marker (format byte then `closeToken`) sits in the
source right there. -/
theorem close_seg_spec (src : List Byte) (format : Byte) (p n : Nat)
    (ha : isCloseAux format (lineAt src p) = some n) :
    p < src.length ∧
    lineEnd src p - ((lineAt src p).length - n) = p + n ∧
    (format = formatJsonClose → 1 ≤ n) ∧
    slice src (p + (if format = formatJsonClose then n - 1 else n))
      (p + (if format = formatJsonClose then n - 1 else n) +
        closeToken.length + 1) = format :: closeToken := by
  have hplen : p < src.length := by
    by_contra hge
    push_neg at hge
    rw [lineAt_of_ge src p hge] at ha
    cases ha
  have hbound := isCloseAux_bound ha
  have hLen := lineAt_length src p
  have hle := lineEnd_le src p
  have hlt := lt_lineEnd src p hplen
  obtain ⟨hj, hsl⟩ := isCloseAux_spec ha
  refine ⟨hplen, by omega, hj, ?_⟩
  have hlen4 : (slice (lineAt src p)
      (if format = formatJsonClose then n - 1 else n)
      ((if format = formatJsonClose then n - 1 else n) +
        closeToken.length + 1)).length = closeToken.length + 1 := by
    rw [hsl]
    rfl
  have hins : (if format = formatJsonClose then n - 1 else n) +
      closeToken.length + 1 ≤ (lineAt src p).length := by
    unfold slice at hlen4
    rw [List.length_take, List.length_drop] at hlen4
    omega
  have harith : p + (if format = formatJsonClose then n - 1 else n) +
      closeToken.length + 1 =
      p + ((if format = formatJsonClose then n - 1 else n) +
        closeToken.length + 1) := by omega
  rw [harith, ← slice_lineAt src p _ _ (by omega)]
  exact hsl

/-- The accumulation loop, when it closes, has buffered exactly the
contiguous source bytes from its start position up to the close index found
on the closing (non-blank) line. -/
theorem accumulateAux_spec (src : List Byte) (format : Byte) :
    ∀ (fuel pos : Nat) (acc segs : List Seg) (q : Nat),
      accumulateAux src format fuel pos acc = (segs, some q) →
      ∃ p n : Nat, pos ≤ p ∧
        isCloseAux format (lineAt src p) = some n ∧
        IsBlank (lineAt src p) = false ∧
        nodeBuffer src segs = nodeBuffer src acc ++ slice src pos (p + n) := by
  intro fuel
  induction fuel with
  | zero =>
    intro pos acc segs q h
    unfold accumulateAux at h
    simp at h
  | succ f ih =>
    intro pos acc segs q h
    unfold accumulateAux at h
    by_cases hlt : pos < src.length
    · rw [if_pos hlt] at h
      by_cases hcl : (Continue src format pos).close = true
      · rw [if_pos hcl] at h
        obtain ⟨n, ha, hbl, hC⟩ := Continue_close hcl
        injection h with h1 h2
        refine ⟨pos, n, Nat.le_refl _, ha, hbl, ?_⟩
        rw [← h1, nodeBuffer_append, nodeBuffer_single]
        congr 1
        rw [hC]
        unfold Seg.Value
        rw [(close_seg_spec src format pos n ha).2.1]
      · have hcl' : (Continue src format pos).close = false := by
          revert hcl
          cases (Continue src format pos).close <;> simp
        rw [if_neg hcl] at h
        obtain ⟨p, n, hpp, ha, hbl, hbuf⟩ := ih _ _ _ _ h
        have hCnc := Continue_not_close hcl'
        rw [hCnc] at hpp hbuf
        simp only at hpp hbuf
        have hge := lineEnd_ge src pos (by omega)
        refine ⟨p, n, by omega, ha, hbl, ?_⟩
        rw [hbuf, nodeBuffer_append, nodeBuffer_single, List.append_assoc]
        congr 1
        unfold Seg.Value
        simp only
        apply slice_append
        · exact hge
        · omega
    · rw [if_neg hlt] at h
      simp at h

/-- A non-`nil` buffer out of `Open` means the block opened and closed on
the first line; the buffer is the single trimmed segment. -/
theorem Open_buffer_some {loadData : LoadDataFn} {src : List Byte}
    {format0 : Byte} {pc : Option Data} {nodeId : Nat} {ch : List Nat}
    {b : List Byte}
    (h : (Open loadData 0 src 0 format0 pc nodeId ch).buffer = some b) :
    isOpen (lineAt src 0) = true ∧
    (Continue src (openFormat src 0) (openPos src 0)).close = true ∧
    b = nodeBuffer src
      [(Continue src (openFormat src 0) (openPos src 0)).seg] := by
  unfold Open at h
  rw [if_neg (by decide)] at h
  by_cases hio : isOpen (lineAt src 0) = true
  · rw [if_pos hio] at h
    by_cases hcl : (Continue src (openFormat src 0) (openPos src 0)).close = true
    · rw [if_pos hcl] at h
      have h2 : some (nodeBuffer src
          [(Continue src (openFormat src 0) (openPos src 0)).seg]) = some b := h
      exact ⟨hio, hcl, (Option.some.inj h2).symm⟩
    · rw [if_neg hcl] at h
      have h2 : (none : Option (List Byte)) = some b := h
      exact Option.noConfusion h2
  · rw [if_neg hio] at h
    have h2 : (none : Option (List Byte)) = some b := h
    exact Option.noConfusion h2

/-- A node out of `Open` means the line opened and the first `Continue` did
not close. -/
theorem Open_node_some {loadData : LoadDataFn} {src : List Byte}
    {format0 : Byte} {pc : Option Data} {nodeId : Nat} {ch : List Nat}
    {segs0 : List Seg}
    (h : (Open loadData 0 src 0 format0 pc nodeId ch).node = some segs0) :
    isOpen (lineAt src 0) = true ∧
    (Continue src (openFormat src 0) (openPos src 0)).close = false := by
  unfold Open at h
  rw [if_neg (by decide)] at h
  by_cases hio : isOpen (lineAt src 0) = true
  · refine ⟨hio, ?_⟩
    rw [if_pos hio] at h
    by_cases hcl : (Continue src (openFormat src 0) (openPos src 0)).close = true
    · rw [if_pos hcl] at h
      have h2 : (none : Option (List Seg)) = some segs0 := h
      exact Option.noConfusion h2
    · revert hcl
      cases (Continue src (openFormat src 0) (openPos src 0)).close <;> simp
  · rw [if_neg hio] at h
    have h2 : (none : Option (List Seg)) = some segs0 := h
    exact Option.noConfusion h2

/-- C4 (amended): whenever the machine closes a metadata block and hands a
buffer to the decoder, that buffer is exactly the contiguous, unmodified
source bytes from the position where `Open` stopped consuming
(`openPos src 0`: right after `<!--` and the signal byte for `:` and `#`,
but at the opening brace itself for the JSON format, whose braces are part
of the payload) up to the close index found by the close scan on the
closing, non-blank line; the close marker — the format byte followed by
`closeToken` — sits at that boundary: immediately after the buffer for
`:`/`#`, while for JSON the buffer's last byte is the closing brace
itself. -/
theorem C4_buffer_amended (loadData : LoadDataFn) (src : List Byte)
    (nodeId : Nat) (parentChildren : List Nat) (b : List Byte)
    (hb : (parseDoc loadData src nodeId parentChildren).buffer = some b) :
    ∃ p n : Nat,
      openPos src 0 ≤ p ∧
      isCloseAux (openFormat src 0) (lineAt src p) = some n ∧
      IsBlank (lineAt src p) = false ∧
      b = slice src (openPos src 0) (p + n) ∧
      (openFormat src 0 = formatJsonClose → 1 ≤ n) ∧
      slice src (p + (if openFormat src 0 = formatJsonClose then n - 1 else n))
        (p + (if openFormat src 0 = formatJsonClose then n - 1 else n) +
          closeToken.length + 1) = openFormat src 0 :: closeToken := by
  unfold parseDoc at hb
  split at hb
  · rename_i heq
    have hb2 : (Open loadData 0 src 0 0 none nodeId parentChildren).buffer =
        some b := hb
    obtain ⟨hio, hcl, hbuf⟩ := Open_buffer_some hb2
    obtain ⟨n, ha, hbl, hC⟩ := Continue_close hcl
    obtain ⟨hplen, hstop, hj, hmark⟩ :=
      close_seg_spec src (openFormat src 0) (openPos src 0) n ha
    refine ⟨openPos src 0, n, Nat.le_refl _, ha, hbl, ?_, hj, hmark⟩
    rw [hbuf, nodeBuffer_single, hC]
    unfold Seg.Value
    rw [hstop]
  · rename_i segs0 heq
    obtain ⟨hio, hnc⟩ := Open_node_some heq
    have hopen := Open_line0 loadData src 0 none nodeId parentChildren hnc
    rw [hopen, if_pos hio] at heq
    have heq' : some [(Continue src (openFormat src 0) (openPos src 0)).seg] =
        some segs0 := heq
    have hsegs0 : segs0 =
        [(Continue src (openFormat src 0) (openPos src 0)).seg] :=
      (Option.some.inj heq').symm
    split at hb
    · rename_i segs q heq2
      have hbb : some (nodeBuffer src segs) = some b := hb
      rw [hopen, if_pos hio] at heq2
      have heq3 : accumulate src (openFormat src 0)
          (Continue src (openFormat src 0) (openPos src 0)).nextPos segs0 =
          (segs, some q) := heq2
      unfold accumulate at heq3
      obtain ⟨p, n, hpp, ha, hbl, hbuf⟩ :=
        accumulateAux_spec src (openFormat src 0) _ _ _ _ _ heq3
      obtain ⟨hplen, hstop, hj, hmark⟩ :=
        close_seg_spec src (openFormat src 0) p n ha
      have hCnc := Continue_not_close hnc
      rw [hCnc] at hpp hbuf
      simp only at hpp hbuf
      have h5 : openPos src 0 ≤ src.length := by
        have hl1 := isOpen_length hio
        have hl2 := lineAt_length src 0
        have hl3 := lineEnd_le src 0
        unfold openPos openToken at *
        split <;> (simp only [List.length_cons, List.length_nil] at *; omega)
      have hge := lineEnd_ge src (openPos src 0) h5
      refine ⟨p, n, by omega, ha, hbl, ?_, hj, hmark⟩
      rw [← Option.some.inj hbb, hbuf, hsegs0, nodeBuffer_single, hCnc]
      unfold Seg.Value
      simp only
      apply slice_append
      · exact hge
      · omega
    · rename_i segs heq2
      have hb2 : (none : Option (List Byte)) = some b := hb
      exact Option.noConfusion hb2

/-- C4 counterexample: for the JSON document `<!--\x7b"a":1\x7d-->` the buffer
handed to the decoder is `\x7b"a":1\x7d` — it contains the opening signal brace
(position 4) and the closing brace (position 10), not just the bytes
strictly between the end of the opening marker (after its signal byte,
position 5) and the start of the closing marker (the closing brace at
position 10), which would be `"a":1`. -/
theorem C4_json_braces_counterexample :
    (parseDoc ldNone [60, 33, 45, 45, 123, 34, 97, 34, 58, 49, 125, 45, 45,
      62] 7 []).buffer = some [123, 34, 97, 34, 58, 49, 125] ∧
    (parseDoc ldNone [60, 33, 45, 45, 123, 34, 97, 34, 58, 49, 125, 45, 45,
      62] 7 []).buffer ≠
      some (slice [60, 33, 45, 45, 123, 34, 97, 34, 58, 49, 125, 45, 45, 62]
        (openToken.length + 1) 10) := by
  exact ⟨by decide, by decide⟩

/-- C4 witness: the single-line YAML document `<!--:ab:-->` closes with
buffer `ab`, and the amended characterisation holds on it. -/
theorem C4_buffer_amended_witness :
    (parseDoc ldNone [60, 33, 45, 45, 58, 97, 98, 58, 45, 45, 62] 7
      []).buffer = some [97, 98] ∧
    (∃ p n : Nat,
      openPos [60, 33, 45, 45, 58, 97, 98, 58, 45, 45, 62] 0 ≤ p ∧
      isCloseAux (openFormat [60, 33, 45, 45, 58, 97, 98, 58, 45, 45, 62] 0)
        (lineAt [60, 33, 45, 45, 58, 97, 98, 58, 45, 45, 62] p) = some n ∧
      IsBlank (lineAt [60, 33, 45, 45, 58, 97, 98, 58, 45, 45, 62] p) =
        false ∧
      [97, 98] = slice [60, 33, 45, 45, 58, 97, 98, 58, 45, 45, 62]
        (openPos [60, 33, 45, 45, 58, 97, 98, 58, 45, 45, 62] 0) (p + n) ∧
      (openFormat [60, 33, 45, 45, 58, 97, 98, 58, 45, 45, 62] 0 =
        formatJsonClose → 1 ≤ n) ∧
      slice [60, 33, 45, 45, 58, 97, 98, 58, 45, 45, 62]
        (p + (if openFormat [60, 33, 45, 45, 58, 97, 98, 58, 45, 45, 62] 0 =
          formatJsonClose then n - 1 else n))
        (p + (if openFormat [60, 33, 45, 45, 58, 97, 98, 58, 45, 45, 62] 0 =
          formatJsonClose then n - 1 else n) + closeToken.length + 1) =
        openFormat [60, 33, 45, 45, 58, 97, 98, 58, 45, 45, 62] 0 ::
          closeToken) :=
  ⟨by decide, C4_buffer_amended ldNone
    [60, 33, 45, 45, 58, 97, 98, 58, 45, 45, 62] 7 [] [97, 98] (by decide)⟩

/-- C9 witness: a parser whose format field holds the TOML signal (35) is
overwritten with the YAML signal (58) when a YAML document opens, and the
context stays empty. -/
theorem C9_shared_parser_format_witness :
    isOpen (lineAt [60, 33, 45, 45, 58, 10, 97] 0) = true ∧
      (NewParser () = NewParser () ∧
      (Open ldNone 0 [60, 33, 45, 45, 58, 10, 97] 0 35 none 7 []).format =
        openFormat [60, 33, 45, 45, 58, 10, 97] 0 ∧
      ((Open ldNone 0 [60, 33, 45, 45, 58, 10, 97] 0 35 none 7 []).node ≠ none →
        (Open ldNone 0 [60, 33, 45, 45, 58, 10, 97] 0 35 none 7 []).pc = none)) :=
  ⟨by decide, C9_shared_parser_format () () ldNone [60, 33, 45, 45, 58, 10, 97]
    35 none 7 [] (by decide)⟩

/-- Multi-line sanity check mirroring the repository's YAML test input:
`<!--:\nTitle: mmd\n:-->\n\nbody\n` buffers `\nTitle: mmd\n` (the rest of
line 0 and the full middle line, newlines preserved; the close line's
prefix before `:-->` is empty), and on decode success the placeholder is
removed from its parent. -/
theorem yaml_multiline_example :
    (parseDoc ldNone [60, 33, 45, 45, 58, 10, 84, 105, 116, 108, 101, 58,
      32, 109, 109, 100, 10, 58, 45, 45, 62, 10, 10, 98, 111, 100, 121, 10]
      7 [1]).buffer =
      some [10, 84, 105, 116, 108, 101, 58, 32, 109, 109, 100, 10] ∧
    (parseDoc ldNone [60, 33, 45, 45, 58, 10, 84, 105, 116, 108, 101, 58,
      32, 109, 109, 100, 10, 58, 45, 45, 62, 10, 10, 98, 111, 100, 121, 10]
      7 [1]).parentChildren = [1] := by
  exact ⟨by decide, by decide⟩

end Mmd
